import Mathlib

set_option linter.unusedVariables false

/-!
Verification of the batched B-spline kernel (`spline.py`): `B_batch`,
`coef2curve`, `curve2coef`, `extend_grid`.

Tensors are embedded as shape-annotated total functions over ℕ indices
with exact rational entries.  The IEEE pecularities that the source's
`torch.nan_to_num` call depends on (0/0 = NaN, a/0 = ±inf for a ≠ 0,
inf·0 = NaN, NaN absorbing in + and ·, and `nan_to_num` mapping NaN to 0
and ±inf to the largest finite magnitude) are modelled exactly by the
four-state carrier `FQ` below; rounding is not modelled (exact
arithmetic).
-/

/-- A 2-D tensor: row/column counts plus a total entry function. -/
structure Tensor2 where
  rows : ℕ
  cols : ℕ
  data : ℕ → ℕ → ℚ

/-- A 3-D tensor: three dimension sizes plus a total entry function. -/
structure Tensor3 where
  d0 : ℕ
  d1 : ℕ
  d2 : ℕ
  data : ℕ → ℕ → ℕ → ℚ

/-- Shape of a 3-D tensor as a triple. -/
def Tensor3.shape (t : Tensor3) : ℕ × ℕ × ℕ := (t.d0, t.d1, t.d2)

/-- Shape of a 2-D tensor as a pair. -/
def Tensor2.shape (t : Tensor2) : ℕ × ℕ := (t.rows, t.cols)

/-- Bounded extensional equality of 2-D tensors: same shape and equal
entries at every in-range index (entries outside the declared shape are
irrelevant padding of the embedding). -/
def Tensor2.ExtEq (a b : Tensor2) : Prop :=
  a.rows = b.rows ∧ a.cols = b.cols ∧
    ∀ s < a.rows, ∀ j < a.cols, a.data s j = b.data s j

/-- Build a `Tensor2` from a rectangular list of lists (row-major). -/
def t2ofList (l : List (List ℚ)) : Tensor2 :=
  ⟨l.length, (l.headD []).length, fun s j => (l.getD s []).getD j 0⟩

/-- Build a `Tensor3` from nested lists. -/
def t3ofList (l : List (List (List ℚ))) : Tensor3 :=
  ⟨l.length, (l.headD []).length, ((l.headD []).headD []).length,
    fun i j k => ((l.getD i []).getD j []).getD k 0⟩

/-- Float-like values as they occur inside one recursion level of
`B_batch` before `torch.nan_to_num`: a finite rational, `+inf`, `-inf`,
or NaN.  All inputs to a level are finite (the previous level was
already cleaned by `nan_to_num`), so non-finite values only arise from
the two divisions of the Cox–de Boor combination. -/
inductive FQ where
  | fin (q : ℚ)
  | pinf
  | minf
  | nan
deriving DecidableEq

/-- IEEE behaviour of the compound `num / den * b` as written in the
source (`(x - t_i)/(t_{i+k} - t_i) * B`), with finite operands:
`0/0 = NaN`, `a/0 = ±inf` (a ≠ 0), `±inf · 0 = NaN`, `±inf · b = ±inf`
with the sign rule, and the exact rational product otherwise. -/
def divmul (num den b : ℚ) : FQ :=
  if den = 0 then
    if num = 0 ∨ b = 0 then FQ.nan
    else if (0 < num) = (0 < b) then FQ.pinf else FQ.minf
  else FQ.fin (num / den * b)

/-- IEEE addition of two level terms: NaN absorbs, `+inf + -inf = NaN`,
infinities absorb finite values, finite values add exactly. -/
def FQ.addF : FQ → FQ → FQ
  | FQ.nan, _ => FQ.nan
  | _, FQ.nan => FQ.nan
  | FQ.pinf, FQ.minf => FQ.nan
  | FQ.minf, FQ.pinf => FQ.nan
  | FQ.pinf, _ => FQ.pinf
  | _, FQ.pinf => FQ.pinf
  | FQ.minf, _ => FQ.minf
  | _, FQ.minf => FQ.minf
  | FQ.fin a, FQ.fin b => FQ.fin (a + b)

/-- Largest finite float32 magnitude, `torch.nan_to_num`'s default
replacement for `+inf` (the default torch dtype): 2^128 - 2^104. -/
def MAXF : ℚ := 340282346638528859811704183484516925440

/-- `torch.nan_to_num` with default arguments: NaN ↦ 0,
`+inf` ↦ largest finite value, `-inf` ↦ lowest finite value. -/
def nanToNum : FQ → ℚ
  | FQ.fin q => q
  | FQ.pinf => MAXF
  | FQ.minf => -MAXF
  | FQ.nan => 0

/-- One entry of the order-(k'+1) combination of `B_batch` before the
level's `nan_to_num`: with `t = grid.data s` and `k = k' + 1`,
`(x - t i)/(t (i+k) - t i) * B i  +  (t (i+k+1) - x)/(t (i+k+1) - t (i+1)) * B (i+1)`
under IEEE semantics for the degenerate denominators. -/
def bLevel (x grid : Tensor2) (k' : ℕ) (B : Tensor3) (n s i : ℕ) : FQ :=
  FQ.addF
    (divmul (x.data n s - grid.data s i)
      (grid.data s (k' + 1 + i) - grid.data s i) (B.data n s i))
    (divmul (grid.data s (k' + 2 + i) - x.data n s)
      (grid.data s (k' + 2 + i) - grid.data s (1 + i)) (B.data n s (i + 1)))

/-- Embedding of `B_batch(x, grid, k, extend, device)`.

The source broadcasts `x.unsqueeze(2)` (shape `(N, S, 1)`, samples-major)
against `grid.unsqueeze(0)` (shape `(1, S, G)`), so the result has shape
`(N, S, G - k - 1)`.  `k = 0` is the half-open indicator base case; for
`k > 0` the order-(k-1) basis is recomputed from the same `x` and `grid`
(`B_batch(x[:,:,0], grid[0], k - 1)`) and combined per `bLevel`; each
level ends with `torch.nan_to_num`.  The `extend` argument is accepted
(default `True`) and never read, exactly as in the source. -/
def B_batch (x grid : Tensor2) (k : ℕ) (extend : Bool := true) : Tensor3 :=
  match k with
  | 0 =>
    ⟨x.rows, grid.rows, grid.cols - 1, fun n s i =>
      if grid.data s i ≤ x.data n s ∧ x.data n s < grid.data s (i + 1)
      then 1 else 0⟩
  | k' + 1 =>
    let B := B_batch x grid k'
    ⟨x.rows, grid.rows, grid.cols - (k' + 2), fun n s i =>
      nanToNum (bLevel x grid k' B n s i)⟩

/-- Embedding of `coef2curve(x_eval, grid, coef, k, device)`:
`b_splines = B_batch(x_eval, grid, k)` of shape `(batch, in_dim, n_coef)`,
then `einsum('ijk,jlk->ijl', b_splines, coef)` — output shape
`(batch, in_dim, out_dim)` with
`y[i, j, l] = Σ_c b_splines[i, j, c] · coef[j, l, c]`. -/
def coef2curve (x_eval grid : Tensor2) (coef : Tensor3) (k : ℕ) : Tensor3 :=
  let b_splines := B_batch x_eval grid k
  ⟨b_splines.d0, b_splines.d1, coef.d1, fun i j l =>
    ∑ c ∈ Finset.range b_splines.d2, b_splines.data i j c * coef.data j l c⟩

/-- The least-squares backend of `curve2coef` (`torch.linalg.lstsq` with
the `gelsy` driver on CPU) taken as a parameter: given the design matrix
(as an entry function), its row count `N` and column count `C`, and the
target vector, it returns a coefficient vector.  Its documented contract
(a minimum-norm least-squares solution) is imposed by hypothesis in the
theorems below. -/
def LstsqSolver : Type :=
  (ℕ → ℕ → ℚ) → ℕ → ℕ → (ℕ → ℚ) → (ℕ → ℚ)

/-- Embedding of `curve2coef(x_eval, y_eval, grid, k)`:
`batch = x_eval.shape[0]`, `in_dim = x_eval.shape[1]`,
`out_dim = y_eval.shape[2]`, `n_coef = grid.shape[1] - k - 1`;
`mat = B_batch(x_eval, grid, k)` is permuted to `(in_dim, batch, n_coef)`
and expanded over `out_dim`, `y_eval` is permuted to
`(in_dim, out_dim, batch, 1)`, and one least-squares system per
`(in_dim, out_dim)` pair is handed to the solver
(`torch.linalg.lstsq(...).solution[:,:,:,0]`).  There is no check of
`batch` against `n_coef`: underdetermined systems go to the solver
unchanged. -/
def curve2coef (solver : LstsqSolver) (x_eval : Tensor2) (y_eval : Tensor3)
    (grid : Tensor2) (k : ℕ) : Tensor3 :=
  let batch := x_eval.rows
  let in_dim := x_eval.cols
  let out_dim := y_eval.d2
  let n_coef := grid.cols - k - 1
  let mat := B_batch x_eval grid k
  ⟨in_dim, out_dim, n_coef, fun i o c =>
    solver (fun n j => mat.data n i j) batch n_coef
      (fun n => y_eval.data n i o) c⟩

/-- One iteration of the `extend_grid` loop with the fixed per-row step
`h`: `grid = cat([grid[:, [0]] - h, grid], 1)` followed by
`grid = cat([grid, grid[:, [-1]] + h], 1)`. -/
def extendStep (h : ℕ → ℚ) (g : Tensor2) : Tensor2 :=
  let g1 : Tensor2 :=
    ⟨g.rows, g.cols + 1, fun s j =>
      if j = 0 then g.data s 0 - h s else g.data s (j - 1)⟩
  ⟨g1.rows, g1.cols + 1, fun s j =>
    if j < g1.cols then g1.data s j else g1.data s (g1.cols - 1) + h s⟩

/-- The `for i in range(k_extend)` loop of `extend_grid`. -/
def extendLoop (h : ℕ → ℚ) : ℕ → Tensor2 → Tensor2
  | 0, g => g
  | n + 1, g => extendLoop h n (extendStep h g)

/-- The per-row step of `extend_grid`:
`h = (grid[:, [-1]] - grid[:, [0]]) / (grid.shape[1] - 1)`, computed
once from the original grid before the loop. -/
def hstep (grid : Tensor2) : ℕ → ℚ := fun s =>
  (grid.data s (grid.cols - 1) - grid.data s 0) / ((grid.cols : ℚ) - 1)

/-- Embedding of `extend_grid(grid, k_extend)`: compute `hstep` once,
then run the prepend/append step `k_extend` times. -/
def extend_grid (grid : Tensor2) (k_extend : ℕ) : Tensor2 :=
  extendLoop (hstep grid) k_extend grid

/-! Concrete fixtures used by witnesses and counterexamples. -/

/-- One sample `1/2` for one spline; shape `(1, 1)`. -/
def wX1 : Tensor2 := t2ofList [[1/2]]

/-- Two samples `1/2, 3/2` for one spline; shape `(2, 1)`. -/
def wX2 : Tensor2 := t2ofList [[1/2], [3/2]]

/-- One grid row `0, 1, 2, 3`; shape `(1, 4)`. -/
def wG4 : Tensor2 := t2ofList [[0, 1, 2, 3]]

/-- One grid row `0, 1, 2`; shape `(1, 3)`. -/
def wG3 : Tensor2 := t2ofList [[0, 1, 2]]

/-- One grid row `0, 1`; shape `(1, 2)`. -/
def wG2 : Tensor2 := t2ofList [[0, 1]]

/-- A monotone grid row with a repeated knot: `0, 1, 1, 2`. -/
def wGdeg : Tensor2 := t2ofList [[0, 1, 1, 2]]

/-- Coefficients `1, 2` for one spline and one output channel;
shape `(1, 1, 2)`. -/
def wCoef : Tensor3 := t3ofList [[[1, 2]]]

/-! Dimension lemmas for `B_batch`. -/

lemma B_batch_d0 (x g : Tensor2) (k : ℕ) (e : Bool) :
    (B_batch x g k e).d0 = x.rows := by cases k <;> rfl

lemma B_batch_d1 (x g : Tensor2) (k : ℕ) (e : Bool) :
    (B_batch x g k e).d1 = g.rows := by cases k <;> rfl

lemma B_batch_d2 (x g : Tensor2) (k : ℕ) (e : Bool) :
    (B_batch x g k e).d2 = g.cols - k - 1 := by
  cases k with
  | zero => simp [B_batch]
  | succ k' => show g.cols - (k' + 2) = g.cols - (k' + 1) - 1; omega

/-- C1, counterexample.  The claim predicts shape `(S, C, N)` with
`C = G + k - 1`: at `S = N = 1`, `G = 4`, `k = 1` that is `(1, 4, 1)`;
the code returns `(1, 1, 2)` — the basis axis is last and carries
`G - k - 1` bases, not `G + k - 1`. -/
theorem B_batch_claimed_shape_false : (B_batch wX1 wG4 1).shape ≠ (1, 4, 1) := by
  decide

/-- C1, amended.  `B_batch` on `x` of shape `(N, S)` (samples-major, as
the source broadcasts) and `grid` of shape `(S, G)` returns a tensor of
shape `(N, S, C)` with `C = G - k - 1` for every order `k ≥ 0`. -/
theorem B_batch_shape (x g : Tensor2) (k : ℕ) (e : Bool) :
    (B_batch x g k e).shape = (x.rows, g.rows, g.cols - k - 1) := by
  simp [Tensor3.shape, B_batch_d0, B_batch_d1, B_batch_d2]

/-- C2.  For order `k + 1 ≥ 1` and non-degenerate denominators, every
entry of `B_batch` is the Cox–de Boor combination
`(x - t_i)/(t_{i+k+1} - t_i) · B_{i,k} + (t_{i+k+2} - x)/(t_{i+k+2} - t_{i+1}) · B_{i+1,k}`
of the order-`k` bases computed by `B_batch` from the same `x` and the
same grid that were passed in at the top level. -/
theorem B_batch_cox_de_boor (x g : Tensor2) (k : ℕ) (e : Bool) (n s i : ℕ)
    (h1 : g.data s (k + 1 + i) - g.data s i ≠ 0)
    (h2 : g.data s (k + 2 + i) - g.data s (1 + i) ≠ 0) :
    (B_batch x g (k + 1) e).data n s i =
      (x.data n s - g.data s i) / (g.data s (k + 1 + i) - g.data s i)
          * (B_batch x g k).data n s i
        + (g.data s (k + 2 + i) - x.data n s)
            / (g.data s (k + 2 + i) - g.data s (1 + i))
          * (B_batch x g k).data n s (i + 1) := by
  show nanToNum (bLevel x g k (B_batch x g k) n s i) = _
  rw [bLevel, divmul, divmul, if_neg h1, if_neg h2]
  rfl

/-- C2, witness: the Cox–de Boor equation instantiated on the grid
`0, 1, 2, 3`, order 1, sample `1/2`. -/
theorem B_batch_cox_de_boor_witness :
    (B_batch wX1 wG4 1).data 0 0 0 =
      (wX1.data 0 0 - wG4.data 0 0) / (wG4.data 0 1 - wG4.data 0 0)
          * (B_batch wX1 wG4 0).data 0 0 0
        + (wG4.data 0 2 - wX1.data 0 0) / (wG4.data 0 2 - wG4.data 0 1)
          * (B_batch wX1 wG4 0).data 0 0 1 :=
  B_batch_cox_de_boor wX1 wG4 0 true 0 0 0
    (by norm_num [wG4, t2ofList, List.getD])
    (by norm_num [wG4, t2ofList, List.getD])

/-- C3, counterexample.  The claim predicts `coef2curve` output shape
`(S, out_dim, N)`: at `S = out_dim = 1`, `N = 2` that is `(1, 1, 2)`;
the code returns `(N, S, out_dim) = (2, 1, 1)`. -/
theorem coef2curve_claimed_shape_false :
    (coef2curve wX2 wG4 wCoef 1).shape ≠ (1, 1, 2) := by
  decide

/-- C3, amended.  `coef2curve` returns a tensor of shape
`(N, S, out_dim)` with
`y[n, s, o] = Σ_{c < G - k - 1} B_batch(x, grid, k)[n, s, c] · coef[s, o, c]`. -/
theorem coef2curve_spec (x g : Tensor2) (coef : Tensor3) (k : ℕ) :
    (coef2curve x g coef k).shape = (x.rows, g.rows, coef.d1) ∧
      ∀ n s o, (coef2curve x g coef k).data n s o =
        ∑ c ∈ Finset.range (g.cols - k - 1),
          (B_batch x g k).data n s c * coef.data s o c := by
  constructor
  · simp [coef2curve, Tensor3.shape, B_batch_d0, B_batch_d1]
  · intro n s o
    show (∑ c ∈ Finset.range (B_batch x g k).d2, _) = _
    rw [B_batch_d2]

/-- C7, counterexample.  The claim predicts shape `(S, G - 1, N)` for
`k = 0`: at `S = N = 1`, `G = 3` that is `(1, 2, 1)`; the code returns
`(1, 1, 2)` — the indicator axis is last. -/
theorem B_batch_indicator_shape_false :
    (B_batch wX1 wG3 0).shape ≠ (1, 2, 1) := by
  decide

/-- C7, amended.  For `k = 0`, `B_batch` returns the half-open indicator
bases `1[grid[s, i] ≤ x < grid[s, i+1]]` in a tensor of shape
`(N, S, G - 1)`; in particular a sample equal to the last grid point
evaluates to 0 on the top interval (the right endpoint is exclusive). -/
theorem B_batch_indicator (x g : Tensor2) (e : Bool) :
    (B_batch x g 0 e).shape = (x.rows, g.rows, g.cols - 1) ∧
      (∀ n s i, (B_batch x g 0 e).data n s i =
        if g.data s i ≤ x.data n s ∧ x.data n s < g.data s (i + 1)
        then 1 else 0) ∧
      ∀ n s, 2 ≤ g.cols → x.data n s = g.data s (g.cols - 1) →
        (B_batch x g 0 e).data n s (g.cols - 2) = 0 := by
  refine ⟨rfl, fun n s i => rfl, fun n s hG hx => ?_⟩
  show (if _ then _ else _) = (0 : ℚ)
  rw [if_neg]
  rintro ⟨-, hlt⟩
  have : g.cols - 2 + 1 = g.cols - 1 := by omega
  rw [this, ← hx] at hlt
  exact lt_irrefl _ hlt

/-- C7, witness: on the grid `0, 1, 2` the sample `2` (the last grid
point) evaluates to 0 on the top interval. -/
theorem B_batch_indicator_witness :
    (B_batch (t2ofList [[2]]) wG3 0).data 0 0 1 = 0 := by
  have h := (B_batch_indicator (t2ofList [[2]]) wG3 true).2.2 0 0
    (by norm_num [wG3, t2ofList])
    (by norm_num [wG3, t2ofList, List.getD])
  exact h

/-- C10.  The `extend` argument of `B_batch` is accepted but never read:
the result is identical for any two values of it. -/
theorem B_batch_extend_unused (x g : Tensor2) (k : ℕ) (e1 e2 : Bool) :
    B_batch x g k e1 = B_batch x g k e2 := by
  cases k <;> rfl

/-! Least-squares vocabulary for `curve2coef`.  A design matrix is an
entry function `D` together with a row count and a column count; only
entries inside those bounds are ever referred to. -/

/-- Row `n` of `D` applied to the coefficient vector `c`:
`Σ_{j < C} D n j · c j`. -/
def applyRow (D : ℕ → ℕ → ℚ) (C : ℕ) (c : ℕ → ℚ) (n : ℕ) : ℚ :=
  ∑ j ∈ Finset.range C, D n j * c j

/-- Squared residual of the system `D · c ≈ b` over the first `N` rows. -/
def resid (D : ℕ → ℕ → ℚ) (N C : ℕ) (b c : ℕ → ℚ) : ℚ :=
  ∑ n ∈ Finset.range N, (applyRow D C c n - b n) ^ 2

/-- `c` is a least-squares solution of `D · c ≈ b`. -/
def IsLS (D : ℕ → ℕ → ℚ) (N C : ℕ) (b c : ℕ → ℚ) : Prop :=
  ∀ c2, resid D N C b c ≤ resid D N C b c2

/-- Squared norm of the first `C` coefficients. -/
def sqnorm (C : ℕ) (c : ℕ → ℚ) : ℚ := ∑ j ∈ Finset.range C, c j ^ 2

/-- `c` is the minimum-norm least-squares solution of `D · c ≈ b`: a
least-squares solution whose norm is no larger than that of any other
least-squares solution.  This is the documented contract of
`torch.linalg.lstsq` with the `gelsy` driver. -/
def IsMinNormLS (D : ℕ → ℕ → ℚ) (N C : ℕ) (b c : ℕ → ℚ) : Prop :=
  IsLS D N C b c ∧ ∀ c2, IsLS D N C b c2 → sqnorm C c ≤ sqnorm C c2

/-- The design matrix `D` (of `N` rows, `C` columns) has full column
rank: only the zero vector is sent to zero by every row. -/
def FullColRank (D : ℕ → ℕ → ℚ) (N C : ℕ) : Prop :=
  ∀ u, (∀ n < N, applyRow D C u n = 0) → ∀ j < C, u j = 0

lemma resid_nonneg (D : ℕ → ℕ → ℚ) (N C : ℕ) (b c : ℕ → ℚ) :
    0 ≤ resid D N C b c :=
  Finset.sum_nonneg fun n _ => sq_nonneg _

lemma resid_eq_zero_iff (D : ℕ → ℕ → ℚ) (N C : ℕ) (b c : ℕ → ℚ) :
    resid D N C b c = 0 ↔ ∀ n < N, applyRow D C c n = b n := by
  unfold resid
  rw [Finset.sum_eq_zero_iff_of_nonneg fun n _ => sq_nonneg _]
  constructor
  · intro h n hn
    exact sub_eq_zero.mp (sq_eq_zero_iff.mp (h n (Finset.mem_range.2 hn)))
  · intro h n hn
    rw [h n (Finset.mem_range.mp hn), sub_self]
    norm_num

lemma applyRow_sub (D : ℕ → ℕ → ℚ) (C : ℕ) (a b : ℕ → ℚ) (n : ℕ) :
    applyRow D C (fun j => a j - b j) n = applyRow D C a n - applyRow D C b n := by
  unfold applyRow
  rw [← Finset.sum_sub_distrib]
  exact Finset.sum_congr rfl fun j _ => mul_sub _ _ _

/-- C4.  When the system is underdetermined (`N < C`, with
`C = G - k - 1` unknowns), `curve2coef` still returns a tensor of shape
`(in_dim, out_dim, C)` whose every fiber is the minimum-norm
least-squares solution delivered by the backend solver: there is no
guard on `N` versus `C` and no error path. -/
theorem curve2coef_underdetermined (solver : LstsqSolver)
    (x : Tensor2) (y : Tensor3) (g : Tensor2) (k : ℕ)
    (hN : x.rows < g.cols - k - 1)
    (hs : ∀ i < x.cols, ∀ o < y.d2,
      IsMinNormLS (fun n j => (B_batch x g k).data n i j) x.rows
        (g.cols - k - 1) (fun n => y.data n i o)
        (solver (fun n j => (B_batch x g k).data n i j) x.rows
          (g.cols - k - 1) (fun n => y.data n i o))) :
    (curve2coef solver x y g k).shape = (x.cols, y.d2, g.cols - k - 1) ∧
      ∀ i < x.cols, ∀ o < y.d2,
        IsMinNormLS (fun n j => (B_batch x g k).data n i j) x.rows
          (g.cols - k - 1) (fun n => y.data n i o)
          (fun c => (curve2coef solver x y g k).data i o c) :=
  ⟨rfl, fun i hi o ho => hs i hi o ho⟩

/-- Target values for the C4 witness: one sample, one output channel. -/
def wY1 : Tensor3 := t3ofList [[[1]]]

/-- The concrete backend used in the C4 witness: it returns the vector
`(2, 0)`, which is the minimum-norm least-squares solution of the one
underdetermined system that arises there. -/
def wSolver4 : LstsqSolver := fun _ _ _ _ c => if c = 0 then 2 else 0

lemma wB1_data0 : (B_batch wX1 wG4 1).data 0 0 0 = 1/2 := by
  norm_num [B_batch, bLevel, divmul, FQ.addF, nanToNum, wX1, wG4, t2ofList,
    List.getD]

lemma wB1_data1 : (B_batch wX1 wG4 1).data 0 0 1 = 0 := by
  norm_num [B_batch, bLevel, divmul, FQ.addF, nanToNum, wX1, wG4, t2ofList,
    List.getD]

lemma wY1_data : wY1.data 0 0 0 = 1 := by
  norm_num [wY1, t3ofList, List.getD]

lemma wApply4 (c : ℕ → ℚ) :
    applyRow (fun n j => (B_batch wX1 wG4 1).data n 0 j) 2 c 0 = 1/2 * c 0 := by
  simp [applyRow, Finset.sum_range_succ, wB1_data0, wB1_data1]

lemma wResid4 (c : ℕ → ℚ) :
    resid (fun n j => (B_batch wX1 wG4 1).data n 0 j) 1 2
      (fun n => wY1.data n 0 0) c = (1/2 * c 0 - 1) ^ 2 := by
  simp only [resid, Finset.sum_range_succ, Finset.sum_range_zero, wApply4]
  rw [wY1_data]
  ring

lemma wMinNorm4 :
    IsMinNormLS (fun n j => (B_batch wX1 wG4 1).data n 0 j) 1 2
      (fun n => wY1.data n 0 0) (fun c => if c = 0 then 2 else 0) := by
  constructor
  · intro c2
    rw [wResid4, wResid4]
    norm_num
    positivity
  · intro c2 h2
    have hle := h2 (fun c => if c = 0 then 2 else 0)
    rw [wResid4, wResid4] at hle
    norm_num at hle
    have hc0 : c2 0 = 2 := by nlinarith [sq_nonneg (1/2 * c2 0 - 1)]
    simp only [sqnorm, Finset.sum_range_succ, Finset.sum_range_zero, hc0]
    norm_num
    nlinarith [sq_nonneg (c2 1)]

/-- C4, witness: `N = 1` sample, `C = 2` unknowns on the grid
`0, 1, 2, 3` with `k = 1`; the design row is `(1/2, 0)`, the target is
`1`, and the returned fiber `(2, 0)` is the minimum-norm least-squares
solution. -/
theorem curve2coef_underdetermined_witness :
    (curve2coef wSolver4 wX1 wY1 wG4 1).shape = (1, 1, 2) ∧
      IsMinNormLS (fun n j => (B_batch wX1 wG4 1).data n 0 j) 1 2
        (fun n => wY1.data n 0 0)
        (fun c => (curve2coef wSolver4 wX1 wY1 wG4 1).data 0 0 c) := by
  have key := curve2coef_underdetermined wSolver4 wX1 wY1 wG4 1
    (by norm_num [wX1, wG4, t2ofList]) ?_
  · exact ⟨key.1, key.2 0 (by norm_num [wX1, t2ofList]) 0
      (by norm_num [wY1, t3ofList])⟩
  · intro i hi o ho
    simp only [wX1, wY1, t2ofList, t3ofList, List.length_cons,
      List.length_nil, List.headD_cons, List.length_singleton] at hi ho
    have hi0 : i = 0 := by omega
    have ho0 : o = 0 := by omega
    subst hi0; subst ho0
    exact wMinNorm4

/-- C6.  Round-trip: evaluate curves from coefficients with
`coef2curve`, then refit with `curve2coef` on the same samples and grid.
If the backend returns least-squares solutions and the design matrix of
fiber `(i, o)` (rows = samples, columns = the `C = G - k - 1` bases) has
full column rank with `N ≥ C`, the refitted coefficients equal the
original ones exactly. -/
theorem coef2curve_curve2coef_roundtrip (solver : LstsqSolver)
    (x g : Tensor2) (coef : Tensor3) (k : ℕ) (i o : ℕ)
    (hN : g.cols - k - 1 ≤ x.rows)
    (hLS : IsLS (fun n j => (B_batch x g k).data n i j) x.rows
      (g.cols - k - 1) (fun n => (coef2curve x g coef k).data n i o)
      (solver (fun n j => (B_batch x g k).data n i j) x.rows
        (g.cols - k - 1) (fun n => (coef2curve x g coef k).data n i o)))
    (hFR : FullColRank (fun n j => (B_batch x g k).data n i j) x.rows
      (g.cols - k - 1)) :
    ∀ c < g.cols - k - 1,
      (curve2coef solver x (coef2curve x g coef k) g k).data i o c =
        coef.data i o c := by
  intro c hc
  set D : ℕ → ℕ → ℚ := fun n j => (B_batch x g k).data n i j with hD
  set b : ℕ → ℚ := fun n => (coef2curve x g coef k).data n i o with hb
  set s : ℕ → ℚ := solver D x.rows (g.cols - k - 1) b with hsdef
  have hbrow : ∀ n, b n =
      applyRow D (g.cols - k - 1) (fun j => coef.data i o j) n := by
    intro n
    show (∑ c2 ∈ Finset.range (B_batch x g k).d2,
        (B_batch x g k).data n i c2 * coef.data i o c2) = _
    rw [B_batch_d2]
    rfl
  have h0 : resid D x.rows (g.cols - k - 1) b (fun j => coef.data i o j) = 0 := by
    rw [resid_eq_zero_iff]
    intro n hn
    exact (hbrow n).symm
  have h1 : resid D x.rows (g.cols - k - 1) b s = 0 := by
    refine le_antisymm ?_ (resid_nonneg _ _ _ _ _)
    calc resid D x.rows (g.cols - k - 1) b s
        ≤ resid D x.rows (g.cols - k - 1) b (fun j => coef.data i o j) :=
          hLS (fun j => coef.data i o j)
      _ = 0 := h0
  have h2 := (resid_eq_zero_iff D x.rows (g.cols - k - 1) b s).mp h1
  have h3 : ∀ n < x.rows,
      applyRow D (g.cols - k - 1) (fun j => s j - coef.data i o j) n = 0 := by
    intro n hn
    rw [applyRow_sub, h2 n hn, hbrow n, sub_self]
  have h4 := hFR (fun j => s j - coef.data i o j) h3 c hc
  show s c = coef.data i o c
  have h5 : s c - coef.data i o c = 0 := h4
  linarith

/-- The concrete backend used in the C6 witness: it returns the vector
`(1, 2)`, the exact (zero-residual) least-squares solution of both
systems arising there. -/
def wSolver6 : LstsqSolver :=
  fun _ _ _ _ c => if c = 0 then 1 else if c = 1 then 2 else 0

lemma wB2_00 : (B_batch wX2 wG4 1).data 0 0 0 = 1/2 := by
  norm_num [B_batch, bLevel, divmul, FQ.addF, nanToNum, wX2, wG4, t2ofList,
    List.getD]

lemma wB2_01 : (B_batch wX2 wG4 1).data 0 0 1 = 0 := by
  norm_num [B_batch, bLevel, divmul, FQ.addF, nanToNum, wX2, wG4, t2ofList,
    List.getD]

lemma wB2_10 : (B_batch wX2 wG4 1).data 1 0 0 = 1/2 := by
  norm_num [B_batch, bLevel, divmul, FQ.addF, nanToNum, wX2, wG4, t2ofList,
    List.getD]

lemma wB2_11 : (B_batch wX2 wG4 1).data 1 0 1 = 1/2 := by
  norm_num [B_batch, bLevel, divmul, FQ.addF, nanToNum, wX2, wG4, t2ofList,
    List.getD]

lemma wApply6_0 (c : ℕ → ℚ) :
    applyRow (fun n j => (B_batch wX2 wG4 1).data n 0 j) 2 c 0 =
      1/2 * c 0 := by
  simp [applyRow, Finset.sum_range_succ, wB2_00, wB2_01]

lemma wApply6_1 (c : ℕ → ℚ) :
    applyRow (fun n j => (B_batch wX2 wG4 1).data n 0 j) 2 c 1 =
      1/2 * c 0 + 1/2 * c 1 := by
  simp [applyRow, Finset.sum_range_succ, wB2_10, wB2_11]

lemma wBd2 : (B_batch wX2 wG4 1).d2 = 2 := by
  rw [B_batch_d2]
  norm_num [wG4, t2ofList]

lemma wCoef_0 : wCoef.data 0 0 0 = 1 := by
  norm_num [wCoef, t3ofList, List.getD]

lemma wCoef_1 : wCoef.data 0 0 1 = 2 := by
  norm_num [wCoef, t3ofList, List.getD]

lemma wb6_0 : (coef2curve wX2 wG4 wCoef 1).data 0 0 0 = 1/2 := by
  show (∑ c ∈ Finset.range (B_batch wX2 wG4 1).d2,
      (B_batch wX2 wG4 1).data 0 0 c * wCoef.data 0 0 c) = 1/2
  rw [wBd2]
  simp [Finset.sum_range_succ, wB2_00, wB2_01, wCoef_0, wCoef_1]

lemma wb6_1 : (coef2curve wX2 wG4 wCoef 1).data 1 0 0 = 3/2 := by
  show (∑ c ∈ Finset.range (B_batch wX2 wG4 1).d2,
      (B_batch wX2 wG4 1).data 1 0 c * wCoef.data 0 0 c) = 3/2
  rw [wBd2]
  simp [Finset.sum_range_succ, wB2_10, wB2_11, wCoef_0, wCoef_1]
  norm_num

lemma wIsLS6 :
    IsLS (fun n j => (B_batch wX2 wG4 1).data n 0 j) 2 2
      (fun n => (coef2curve wX2 wG4 wCoef 1).data n 0 0)
      (fun c => if c = 0 then 1 else if c = 1 then 2 else 0) := by
  intro c2
  have h : resid (fun n j => (B_batch wX2 wG4 1).data n 0 j) 2 2
      (fun n => (coef2curve wX2 wG4 wCoef 1).data n 0 0)
      (fun c => if c = 0 then 1 else if c = 1 then 2 else 0) = 0 := by
    rw [resid_eq_zero_iff]
    intro n hn
    interval_cases n
    · rw [wApply6_0, wb6_0]
      norm_num
    · rw [wApply6_1, wb6_1]
      norm_num
  rw [h]
  exact resid_nonneg _ _ _ _ _

lemma wFR6 :
    FullColRank (fun n j => (B_batch wX2 wG4 1).data n 0 j) 2 2 := by
  intro u hu j hj
  have h0 := hu 0 (by norm_num)
  have h1 := hu 1 (by norm_num)
  rw [wApply6_0] at h0
  rw [wApply6_1] at h1
  interval_cases j
  · linarith
  · linarith

/-- C6, witness: one spline on the grid `0, 1, 2, 3`, order 1, samples
`1/2, 3/2` (`N = C = 2`, invertible design), coefficients `(1, 2)`:
refitting the evaluated curve recovers both coefficients exactly. -/
theorem coef2curve_curve2coef_roundtrip_witness :
    (curve2coef wSolver6 wX2 (coef2curve wX2 wG4 wCoef 1) wG4 1).data 0 0 0 =
        wCoef.data 0 0 0 ∧
      (curve2coef wSolver6 wX2 (coef2curve wX2 wG4 wCoef 1) wG4 1).data 0 0 1 =
        wCoef.data 0 0 1 := by
  have key := coef2curve_curve2coef_roundtrip wSolver6 wX2 wG4 wCoef 1 0 0
    (by norm_num [wX2, wG4, t2ofList]) wIsLS6 wFR6
  exact ⟨key 0 (by norm_num [wG4, t2ofList]), key 1 (by norm_num [wG4, t2ofList])⟩

/-- The §3 data-model invariant for one grid row: knots are
monotonically non-decreasing across the row (repeated knots allowed). -/
def MonoRow (t : ℕ → ℚ) (G : ℕ) : Prop :=
  ∀ i, i + 1 < G → t i ≤ t (i + 1)

lemma monoRow_le (t : ℕ → ℚ) (G : ℕ) (h : MonoRow t G) :
    ∀ i j, i ≤ j → j < G → t i ≤ t j := by
  have key : ∀ i d, i + d < G → t i ≤ t (i + d) := by
    intro i d
    induction d with
    | zero => exact fun _ => le_rfl
    | succ d ih => exact fun hd => le_trans (ih (by omega)) (h (i + d) (by omega))
  intro i j hij hj
  have hk := key i (j - i) (by omega)
  rwa [show i + (j - i) = j by omega] at hk

/-- Every `FQ.addF` with a NaN on the left is NaN. -/
lemma addF_nan_left (a : FQ) : FQ.addF FQ.nan a = FQ.nan := by
  cases a <;> rfl

/-- A B-spline basis of any order over a zero-width knot span is
identically zero as computed: on a monotone row, if
`t i = t (i + k + 1)` then the order-`k` basis `i` vanishes at every
sample.  (At `k = 0` this is the empty half-open interval; at higher
orders both Cox–de Boor terms are `0/0 · 0 = NaN`, and the level's
`nan_to_num` turns the NaN entry into exactly 0.) -/
lemma B_batch_zero_of_degenerate (x g : Tensor2) :
    ∀ k n s i, MonoRow (g.data s) g.cols → i + k + 1 < g.cols →
      g.data s i = g.data s (i + k + 1) →
      (B_batch x g k).data n s i = 0 := by
  intro k
  induction k with
  | zero =>
    intro n s i hm hr hdeg
    show (if g.data s i ≤ x.data n s ∧ x.data n s < g.data s (i + 1)
        then (1 : ℚ) else 0) = 0
    rw [if_neg]
    rintro ⟨hle, hlt⟩
    rw [show i + 0 + 1 = i + 1 by omega] at hdeg
    rw [← hdeg] at hlt
    exact absurd hle (not_le.mpr hlt)
  | succ k ih =>
    intro n s i hm hr hdeg
    have hchain : ∀ j, i ≤ j → j ≤ i + k + 2 → g.data s j = g.data s i := by
      intro j h1 h2
      have hup : g.data s j ≤ g.data s (i + k + 2) :=
        monoRow_le _ _ hm j (i + k + 2) h2 (by omega)
      have hdown : g.data s i ≤ g.data s j :=
        monoRow_le _ _ hm i j h1 (by omega)
      rw [show i + (k + 1) + 1 = i + k + 2 by omega] at hdeg
      exact le_antisymm (hdeg ▸ hup) hdown
    have hB : (B_batch x g k).data n s i = 0 := by
      refine ih n s i hm (by omega) ?_
      rw [hchain (i + k + 1) (by omega) (by omega)]
    show nanToNum (bLevel x g k (B_batch x g k) n s i) = 0
    rw [bLevel]
    have hden1 : g.data s (k + 1 + i) - g.data s i = 0 := by
      rw [show k + 1 + i = i + k + 1 by omega,
        hchain (i + k + 1) (by omega) (by omega), sub_self]
    rw [hB]
    rw [show divmul (x.data n s - g.data s i)
        (g.data s (k + 1 + i) - g.data s i) 0 = FQ.nan by
      rw [divmul, if_pos hden1]
      exact if_pos (Or.inr rfl)]
    rw [addF_nan_left]
    rfl

/-- Every `FQ.addF` with a NaN on the right is NaN. -/
lemma addF_nan_right (a : FQ) : FQ.addF a FQ.nan = FQ.nan := by
  cases a <;> rfl

/-- C5.  On a grid row satisfying the data-model monotonicity invariant
(repeated knots allowed), an order-(k+1) entry of `B_batch` is never a
pre-`nan_to_num` infinity (so `nan_to_num` never substitutes the large
finite sentinel: entries are either the exact rational value or 0), and
whenever either Cox–de Boor denominator for that entry is zero — a
degenerate, zero-width knot span — the returned entry is exactly 0.
This holds at every recursion level, because every level applies
`nan_to_num` to its own combination. -/
theorem B_batch_degenerate_safe (x g : Tensor2) (e : Bool) (k n s i : ℕ)
    (hm : MonoRow (g.data s) g.cols)
    (hr : i + k + 2 < g.cols) :
    bLevel x g k (B_batch x g k) n s i ≠ FQ.pinf ∧
      bLevel x g k (B_batch x g k) n s i ≠ FQ.minf ∧
      ((g.data s (k + 1 + i) - g.data s i = 0 ∨
          g.data s (k + 2 + i) - g.data s (1 + i) = 0) →
        (B_batch x g (k + 1) e).data n s i = 0) := by
  have hterm1 : g.data s (k + 1 + i) - g.data s i = 0 →
      divmul (x.data n s - g.data s i)
        (g.data s (k + 1 + i) - g.data s i) ((B_batch x g k).data n s i) =
        FQ.nan := by
    intro hden
    have hdeg : g.data s i = g.data s (i + k + 1) := by
      rw [show i + k + 1 = k + 1 + i by omega]
      linarith [sub_eq_zero.mp hden]
    have hB : (B_batch x g k).data n s i = 0 :=
      B_batch_zero_of_degenerate x g k n s i hm (by omega) hdeg
    rw [divmul, if_pos hden, hB]
    exact if_pos (Or.inr rfl)
  have hterm2 : g.data s (k + 2 + i) - g.data s (1 + i) = 0 →
      divmul (g.data s (k + 2 + i) - x.data n s)
        (g.data s (k + 2 + i) - g.data s (1 + i))
        ((B_batch x g k).data n s (i + 1)) = FQ.nan := by
    intro hden
    have hdeg : g.data s (i + 1) = g.data s ((i + 1) + k + 1) := by
      rw [show (i + 1) + k + 1 = k + 2 + i by omega,
        show i + 1 = 1 + i by omega]
      linarith [sub_eq_zero.mp hden]
    have hB : (B_batch x g k).data n s (i + 1) = 0 :=
      B_batch_zero_of_degenerate x g k n s (i + 1) hm (by omega) hdeg
    rw [divmul, if_pos hden, hB]
    exact if_pos (Or.inr rfl)
  have hshape1 : divmul (x.data n s - g.data s i)
      (g.data s (k + 1 + i) - g.data s i) ((B_batch x g k).data n s i) =
        FQ.nan ∨
      ∃ q, divmul (x.data n s - g.data s i)
        (g.data s (k + 1 + i) - g.data s i) ((B_batch x g k).data n s i) =
          FQ.fin q := by
    by_cases hden : g.data s (k + 1 + i) - g.data s i = 0
    · exact Or.inl (hterm1 hden)
    · exact Or.inr ⟨_, by rw [divmul, if_neg hden]⟩
  have hshape2 : divmul (g.data s (k + 2 + i) - x.data n s)
      (g.data s (k + 2 + i) - g.data s (1 + i))
        ((B_batch x g k).data n s (i + 1)) = FQ.nan ∨
      ∃ q, divmul (g.data s (k + 2 + i) - x.data n s)
        (g.data s (k + 2 + i) - g.data s (1 + i))
          ((B_batch x g k).data n s (i + 1)) = FQ.fin q := by
    by_cases hden : g.data s (k + 2 + i) - g.data s (1 + i) = 0
    · exact Or.inl (hterm2 hden)
    · exact Or.inr ⟨_, by rw [divmul, if_neg hden]⟩
  refine ⟨?_, ?_, ?_⟩
  · rw [bLevel]
    rcases hshape1 with h1 | ⟨q1, h1⟩ <;> rcases hshape2 with h2 | ⟨q2, h2⟩ <;>
      rw [h1, h2] <;> simp [FQ.addF]
  · rw [bLevel]
    rcases hshape1 with h1 | ⟨q1, h1⟩ <;> rcases hshape2 with h2 | ⟨q2, h2⟩ <;>
      rw [h1, h2] <;> simp [FQ.addF]
  · intro hdeg
    show nanToNum (bLevel x g k (B_batch x g k) n s i) = 0
    rw [bLevel]
    rcases hdeg with hden | hden
    · rw [hterm1 hden, addF_nan_left]
      rfl
    · rw [hterm2 hden, addF_nan_right]
      rfl

/-- C5, witness: the monotone grid `0, 1, 1, 2` has a repeated knot;
at order 1, basis 0, the second Cox–de Boor denominator is 0 and the
entry is exactly 0 (the NaN produced by the degenerate interval is
replaced at that level, not merely at the top). -/
theorem B_batch_degenerate_safe_witness :
    (B_batch wX1 wGdeg 1).data 0 0 0 = 0 := by
  have hm : MonoRow (wGdeg.data 0) wGdeg.cols := by
    intro i hi
    have hi4 : i + 1 < 4 := by simpa [wGdeg, t2ofList] using hi
    have hi3 : i < 3 := by omega
    interval_cases i <;> norm_num [wGdeg, t2ofList, List.getD]
  exact (B_batch_degenerate_safe wX1 wGdeg true 0 0 0 0 hm
    (by norm_num [wGdeg, t2ofList])).2.2
    (Or.inr (by norm_num [wGdeg, t2ofList, List.getD]))

/-! Closed form of the `extend_grid` loop. -/

lemma extendStep_rows (h : ℕ → ℚ) (g : Tensor2) :
    (extendStep h g).rows = g.rows := rfl

lemma extendStep_cols (h : ℕ → ℚ) (g : Tensor2) :
    (extendStep h g).cols = g.cols + 2 := rfl

lemma extendStep_data_expand (h : ℕ → ℚ) (g : Tensor2) (s j : ℕ) :
    (extendStep h g).data s j =
      if j < g.cols + 1 then
        (if j = 0 then g.data s 0 - h s else g.data s (j - 1))
      else
        (if g.cols + 1 - 1 = 0 then g.data s 0 - h s
          else g.data s (g.cols + 1 - 1 - 1)) + h s := rfl

lemma extendStep_data_zero (h : ℕ → ℚ) (g : Tensor2) (s : ℕ) :
    (extendStep h g).data s 0 = g.data s 0 - h s := by
  rw [extendStep_data_expand, if_pos (by omega), if_pos rfl]

lemma extendStep_data_mid (h : ℕ → ℚ) (g : Tensor2) (s j : ℕ)
    (h1 : 1 ≤ j) (h2 : j ≤ g.cols) :
    (extendStep h g).data s j = g.data s (j - 1) := by
  rw [extendStep_data_expand, if_pos (by omega), if_neg (by omega)]

lemma extendStep_data_last (h : ℕ → ℚ) (g : Tensor2) (s j : ℕ)
    (hc : 1 ≤ g.cols) (hj : g.cols + 1 ≤ j) :
    (extendStep h g).data s j = g.data s (g.cols - 1) + h s := by
  rw [extendStep_data_expand, if_neg (by omega),
    show g.cols + 1 - 1 = g.cols by omega, if_neg (by omega)]

lemma extendLoop_rows (h : ℕ → ℚ) :
    ∀ m g, (extendLoop h m g).rows = g.rows := by
  intro m
  induction m with
  | zero => intro g; rfl
  | succ m ih =>
    intro g
    show (extendLoop h m (extendStep h g)).rows = g.rows
    rw [ih, extendStep_rows]

lemma extendLoop_cols (h : ℕ → ℚ) :
    ∀ m g, (extendLoop h m g).cols = g.cols + 2 * m := by
  intro m
  induction m with
  | zero => intro g; show g.cols = g.cols + 2 * 0; omega
  | succ m ih =>
    intro g
    show (extendLoop h m (extendStep h g)).cols = g.cols + 2 * (m + 1)
    rw [ih, extendStep_cols]
    omega

/-- The closed form of `k_extend = m` rounds of extension with a fixed
per-row step `hh`: the first `m` entries step down by `hh` from the
original first knot, the middle is the original row, and the last `m`
entries step up by `hh` from the original last knot. -/
def extData (g : Tensor2) (hh : ℕ → ℚ) (m s j : ℕ) : ℚ :=
  if j < m then g.data s 0 - ((m - j : ℕ) : ℚ) * hh s
  else if j < m + g.cols then g.data s (j - m)
  else g.data s (g.cols - 1) + ((j + 1 - (m + g.cols) : ℕ) : ℚ) * hh s

lemma extendLoop_data (h : ℕ → ℚ) :
    ∀ m (g : Tensor2), 1 ≤ g.cols → ∀ s j, j < g.cols + 2 * m →
      (extendLoop h m g).data s j = extData g h m s j := by
  intro m
  induction m with
  | zero =>
    intro g hc s j hj
    show g.data s j = _
    rw [extData, if_neg (by omega), if_pos (by omega), Nat.sub_zero]
  | succ m ih =>
    intro g hc s j hj
    show (extendLoop h m (extendStep h g)).data s j = _
    rw [ih (extendStep h g) (by rw [extendStep_cols]; omega) s j
      (by rw [extendStep_cols]; omega)]
    rw [extData, extData, extendStep_cols]
    by_cases c1 : j < m
    · rw [if_pos c1, if_pos (show j < m + 1 by omega), extendStep_data_zero,
        show m + 1 - j = (m - j) + 1 by omega]
      push_cast
      ring
    by_cases c2 : j = m
    · rw [if_neg c1, if_pos (show j < m + (g.cols + 2) by omega),
        if_pos (show j < m + 1 by omega),
        show j - m = 0 by omega, extendStep_data_zero,
        show m + 1 - j = 1 by omega]
      push_cast
      ring
    by_cases c3 : j < m + 1 + g.cols
    · rw [if_neg c1, if_pos (show j < m + (g.cols + 2) by omega),
        if_neg (show ¬ j < m + 1 by omega), if_pos c3,
        extendStep_data_mid h g s (j - m) (by omega) (by omega),
        show j - m - 1 = j - (m + 1) by omega]
    by_cases c4 : j = m + g.cols + 1
    · rw [if_neg c1, if_pos (show j < m + (g.cols + 2) by omega),
        extendStep_data_last h g s (j - m) hc (by omega),
        if_neg (show ¬ j < m + 1 by omega),
        if_neg (show ¬ j < m + 1 + g.cols by omega),
        show j + 1 - (m + 1 + g.cols) = 1 by omega]
      push_cast
      ring
    · rw [if_neg c1, if_neg (show ¬ j < m + (g.cols + 2) by omega),
        if_neg (show ¬ j < m + 1 by omega),
        if_neg (show ¬ j < m + 1 + g.cols by omega),
        show g.cols + 2 - 1 = g.cols + 1 by omega,
        extendStep_data_last h g s (g.cols + 1) hc (by omega),
        show j + 1 - (m + 1 + g.cols) = (j + 1 - (m + (g.cols + 2))) + 1 by omega]
      push_cast
      ring

/-- C8.  `extend_grid` returns a grid of shape `(S, G + 2·k_extend)`;
per row the step `h = (last - first)/(G - 1)` is computed once from the
original endpoints before any extension, and each of the `k_extend`
iterations prepends one knot at distance `h` before the current first
knot and appends one at distance `h` after the current last knot — the
closed form `extData`. -/
theorem extend_grid_spec (g : Tensor2) (k : ℕ) (hG : 2 ≤ g.cols) :
    (extend_grid g k).shape = (g.rows, g.cols + 2 * k) ∧
      ∀ s j, j < g.cols + 2 * k →
        (extend_grid g k).data s j = extData g (hstep g) k s j := by
  constructor
  · show ((extendLoop (hstep g) k g).rows, (extendLoop (hstep g) k g).cols) = _
    rw [extendLoop_rows, extendLoop_cols]
  · intro s j hj
    exact extendLoop_data (hstep g) k g (by omega) s j hj

/-- C8, witness: extending the grid `0, 1` once gives shape `(1, 4)`
and its first knot is one step `h` below the original first knot. -/
theorem extend_grid_spec_witness :
    (extend_grid wG2 1).shape = (1, 4) ∧
      (extend_grid wG2 1).data 0 0 = extData wG2 (hstep wG2) 1 0 0 := by
  have key := extend_grid_spec wG2 1 (by norm_num [wG2, t2ofList])
  refine ⟨?_, key.2 0 0 (by norm_num [wG2, t2ofList])⟩
  rw [key.1]
  norm_num [wG2, t2ofList]

/-- C9.  Extending by `k_extend = 1` twice equals extending once by
`k_extend = 2` (exactly, in exact arithmetic): although the second call
recomputes its step from the already-extended endpoints, that recomputed
step `(d + 2h)/(G + 1)` with `h = d/(G - 1)` collapses back to `h`. -/
theorem extend_grid_twice (g : Tensor2) (hG : 2 ≤ g.cols) :
    extend_grid (extend_grid g 1) 1 = extend_grid g 2 := by
  have hfun : hstep (extend_grid g 1) = hstep g := by
    funext s
    show ((extendStep (hstep g) g).data s ((extendStep (hstep g) g).cols - 1) -
        (extendStep (hstep g) g).data s 0) /
        (((extendStep (hstep g) g).cols : ℚ) - 1) = hstep g s
    rw [extendStep_cols, show g.cols + 2 - 1 = g.cols + 1 by omega,
      extendStep_data_last (hstep g) g s (g.cols + 1) (by omega) (by omega),
      extendStep_data_zero]
    rw [hstep]
    have h2c : (2 : ℚ) ≤ (g.cols : ℚ) := by exact_mod_cast hG
    have hq1 : ((g.cols : ℚ)) - 1 ≠ 0 := by
      intro hcon
      nlinarith
    have hq2 : ((g.cols : ℚ)) + 2 - 1 ≠ 0 := by
      intro hcon
      nlinarith
    push_cast
    rw [div_eq_div_iff hq2 hq1]
    field_simp
    ring
  show extendLoop (hstep (extend_grid g 1)) 1 (extend_grid g 1) =
    extendLoop (hstep g) 2 g
  rw [hfun]
  rfl

/-- C9, witness: the grid `0, 1` extended twice by one step equals the
grid extended once by two steps. -/
theorem extend_grid_twice_witness :
    extend_grid (extend_grid wG2 1) 1 = extend_grid wG2 2 :=
  extend_grid_twice wG2 (by norm_num [wG2, t2ofList])

